import Mathlib

/-!
Shallow embedding of the core of the GitHub PR code-owners analyzer
(the `CodeOwnersAnalyzer` class of the content script): CODEOWNERS line
parsing, pattern matching (`doesPatternMatch`), last-match-wins owner
resolution (`getFileOwners`), ownership coverage analysis
(`analyzeOwnership`) and the combined-owner-set search
(`findCombinedOwnerSet`).

Modelling conventions:
* JavaScript strings are modelled as `List Char` (`JStr`); the inputs the
  analyzer handles (CODEOWNERS text, repository paths, `@handles`) are
  plain text, for which this is faithful.
* JS `Set` objects are modelled as insertion-ordered duplicate-free lists
  (`jsAdd` / `jsSetOf`); `size` is `List.length`.
* JS `Map` objects and plain-object caches are modelled as
  insertion-ordered association lists (`alookup` / `mapAddVal`).
* The instance fields that are fixed after initialization
  (`_rawCodeowners`, `prAuthor`, `codeownersMap`, `approvedReviewers`)
  are collected in `Config`; the fields mutated by `getFileOwners`
  (`_fileOwnersCache`, `filesWithOwners`, `filesWithoutOwners`) are
  collected in `Tracking` and threaded explicitly.
-/

namespace CodeOwnersAnalyzer

/-- JavaScript strings, modelled as lists of characters. -/
abbrev JStr := List Char

/-- JS `Set.prototype.add`: append the element if it is not already present
(JS sets keep insertion order). -/
def jsAdd {α : Type} [DecidableEq α] (l : List α) (a : α) : List α :=
  if a ∈ l then l else l ++ [a]

/-- JS `new Set(array)`: deduplicate keeping the first occurrence of each
element, in encounter order. -/
def jsSetOf {α : Type} [DecidableEq α] (l : List α) : List α :=
  l.foldl jsAdd []

/-- Association-list lookup (first entry with the given key wins), modelling
JS `Map.prototype.get` and plain-object property access on own properties. -/
def alookup {β : Type} : List (JStr × β) → JStr → Option β
  | [], _ => none
  | (k, v) :: rest, key => if k = key then some v else alookup rest key

/-- Modelling `map.get(key).add(val)` preceded by
`if (!map.has(key)) map.set(key, new Set())`: the value set of `key` grows
by `val`; a missing key is appended at the end (JS map insertion order). -/
def mapAddVal (m : List (JStr × List JStr)) (key val : JStr) :
    List (JStr × List JStr) :=
  match m with
  | [] => [(key, [val])]
  | (k, vs) :: rest =>
    if k = key then (k, jsAdd vs val) :: rest
    else (k, vs) :: mapAddVal rest key val

/-- ASCII whitespace, for the `trim()` and `split(/\s+/)` calls of the
parser.  The CODEOWNERS lines the analyzer consumes use these characters. -/
def isWs (c : Char) : Bool :=
  c = ' ' || c = '\t' || c = '\n' || c = '\r' || c = '\x0b' || c = '\x0c'

/-- JS `String.prototype.trim` (restricted to ASCII whitespace). -/
def chTrim (s : JStr) : JStr :=
  ((s.dropWhile isWs).reverse.dropWhile isWs).reverse

/-- JS `String.prototype.startsWith`: `chStartsWith s p` holds iff `p` is a
prefix of `s`. -/
def chStartsWith : JStr → JStr → Bool
  | _, [] => true
  | [], _ :: _ => false
  | a :: as, b :: bs => a = b && chStartsWith as bs

/-- JS `String.prototype.endsWith`: `chEndsWith s p` holds iff `p` is a
suffix of `s`. -/
def chEndsWith (s p : JStr) : Bool :=
  chStartsWith s.reverse p.reverse

/-- JS `String.prototype.includes`: substring containment. -/
def chContains : JStr → JStr → Bool
  | [], sub => chStartsWith [] sub
  | c :: rest, sub => chStartsWith (c :: rest) sub || chContains rest sub

/-- Fuel-indexed worker for `chSplitOn`.  Every step consumes at least one
character from the string, so with fuel at least the string's length the
fuel never runs out; the fuel only makes the recursion structural. -/
def chSplitOnF (sep : JStr) : Nat → JStr → List JStr
  | _, [] => [[]]
  | 0, s => [s]
  | fuel + 1, c :: rest =>
    if sep ≠ [] ∧ chStartsWith (c :: rest) sep = true then
      [] :: chSplitOnF sep fuel ((c :: rest).drop sep.length)
    else
      match chSplitOnF sep fuel rest with
      | [] => [[c]]
      | p :: ps => (c :: p) :: ps

/-- JS `String.prototype.split` with a non-empty literal separator:
non-overlapping left-to-right splitting.  All separators used by the
analyzer (`"\n"`, `"*."`, `"**"`) are non-empty. -/
def chSplitOn (sep : JStr) (s : JStr) : List JStr :=
  chSplitOnF sep s.length s

/-- Splitting at every character satisfying a predicate (used, after
filtering out empty pieces, to model `split(/\s+/)`). -/
def chSplitOnPred (p : Char → Bool) : JStr → List JStr
  | [] => [[]]
  | c :: rest =>
    if p c then [] :: chSplitOnPred p rest
    else
      match chSplitOnPred p rest with
      | [] => [[c]]
      | q :: qs => (c :: q) :: qs

/-- JS `str.split(/\s+/)` on an already-trimmed non-empty string: the
maximal runs of non-whitespace characters, in order. -/
def chFields (s : JStr) : List JStr :=
  (chSplitOnPred isWs s).filter (fun t => decide (t ≠ []))

/-- JS `str.replace(/^\//, '')`: drop a single leading slash. -/
def stripLeadingSlash : JStr → JStr
  | '/' :: rest => rest
  | s => s

/-! ### Pattern matcher (`doesPatternMatch`)

The fallback branch of `doesPatternMatch` builds a JavaScript regular
expression from the pattern by the chained replaces
`replace(/\./g, "\\.")`, `replace(/\*\*/g, ".*")`, `replace(/\*/g, "[^/]*")`
— dots become escaped (literal); a `**` becomes `.*` whose own `*` is then
rewritten by the third replace, leaving `.` (one arbitrary character)
followed by `[^/]*`; a remaining single `*` becomes `[^/]*` — wraps it in
`^...$` anchors (or `^....*` for patterns ending in `/`, a branch the
earlier trailing-slash rule makes unreachable), and passes it to
`new RegExp` inside a try/catch: when construction throws, the catch
degrades to `filePath.startsWith(pattern) || filePath === pattern`.

All characters other than `.` and `*` reach the expression unescaped, so
regex metacharacters keep their ECMAScript meaning there.  The model
below covers, exactly: every non-metacharacter literal, the escaped dots,
the `[^/]*` atoms from `*`, the `.`-plus-`[^/]*` residue of `**`, and the
quantifiers `+` and `?` with ECMAScript's validity rules (a quantifier
with nothing to repeat, or directly following another quantifier, is a
`SyntaxError`; a single `?` after a quantifier is the laziness marker,
irrelevant to the Boolean `test`).  The remaining metacharacters
`( ) [ ] { } | ^ $ \` are treated as failing construction — exact for the
unbalanced/unterminated forms (`(`, `)`, `[`, trailing `\`), a modelling
boundary for forms the engine would accept (balanced groups, character
classes, brace quantifiers, alternation, anchors, escapes); no theorem in
this development depends on patterns containing them. -/

/-- Atoms of the constructed expression: a literal character (including
the escaped dots), `.` (any character), and the class `[^/]`. -/
inductive RAtom where
  | lit (c : Char)
  | dot
  | nonSlash
deriving DecidableEq

/-- Quantifier attached to an atom: exactly once, `*`, `+`, or `?`. -/
inductive RQuant where
  | one
  | star
  | plus
  | opt
deriving DecidableEq

/-- One atom of the constructed expression with its quantifier. -/
structure RPiece where
  atom : RAtom
  quant : RQuant
deriving DecidableEq

/-- Construction state while reading the translated pattern: whether the
previously consumed construct can take a quantifier (ECMAScript rejects a
quantifier with nothing to repeat and a quantifier directly after another
quantifier; one `?` after a quantifier is the laziness marker). -/
inductive RState where
  | start
  | afterAtom
  | afterQuant
  | afterLazy
deriving DecidableEq

/-- Modelling `new RegExp` applied to the translated pattern: `none` is a
construction `SyntaxError` (caught by the code's try/catch), `some` the
parsed atom/quantifier sequence.  See the section comment for the exact
coverage. -/
def buildRegexAux : RState → List RPiece → JStr → Option (List RPiece)
  | _, acc, [] => some acc.reverse
  | _, acc, '.' :: rest => buildRegexAux .afterAtom (⟨.lit '.', .one⟩ :: acc) rest
  | _, acc, '*' :: '*' :: rest =>
    buildRegexAux .afterQuant (⟨.nonSlash, .star⟩ :: ⟨.dot, .one⟩ :: acc) rest
  | _, acc, '*' :: rest => buildRegexAux .afterQuant (⟨.nonSlash, .star⟩ :: acc) rest
  | st, acc, '+' :: rest =>
    match st, acc with
    | .afterAtom, p :: acc0 => buildRegexAux .afterQuant (⟨p.atom, .plus⟩ :: acc0) rest
    | _, _ => none
  | st, acc, '?' :: rest =>
    match st, acc with
    | .afterAtom, p :: acc0 => buildRegexAux .afterQuant (⟨p.atom, .opt⟩ :: acc0) rest
    | .afterQuant, _ => buildRegexAux .afterLazy acc rest
    | _, _ => none
  | _, acc, c :: rest =>
    if c ∈ ['(', ')', '[', ']', '{', '}', '|', '^', '$', '\\'] then none
    else buildRegexAux .afterAtom (⟨.lit c, .one⟩ :: acc) rest

/-- Whether one atom accepts one character. -/
def atomTest : RAtom → Char → Bool
  | .lit c, x => c = x
  | .dot, _ => true
  | .nonSlash, x => decide (x ≠ '/')

/-- Fuel-indexed worker for `rMatch`.  Every recursive call shrinks the
combined length of the piece list and the path, so fuel above that
combined length never runs out; it only makes the recursion structural. -/
def rMatchF : Nat → List RPiece → JStr → Bool
  | 0, _, _ => false
  | _ + 1, [], [] => true
  | _ + 1, [], _ :: _ => false
  | fuel + 1, p :: ts, s =>
    match p.quant with
    | .one =>
      match s with
      | [] => false
      | x :: xs => atomTest p.atom x && rMatchF fuel ts xs
    | .opt =>
      rMatchF fuel ts s ||
        match s with
        | [] => false
        | x :: xs => atomTest p.atom x && rMatchF fuel ts xs
    | .star =>
      rMatchF fuel ts s ||
        match s with
        | [] => false
        | x :: xs => atomTest p.atom x && rMatchF fuel (⟨p.atom, .star⟩ :: ts) xs
    | .plus =>
      match s with
      | [] => false
      | x :: xs => atomTest p.atom x && rMatchF fuel (⟨p.atom, .star⟩ :: ts) xs

/-- The Boolean `regex.test` of the constructed expression: existence of
a full (both ends anchored) match, which greedy/lazy distinctions do not
affect. -/
def rMatch (ts : List RPiece) (s : JStr) : Bool :=
  rMatchF (ts.length + s.length + 1) ts s

/-- Translation of `doesPatternMatch(pattern, filePath)`: decides whether a
file path matches one CODEOWNERS pattern.  The branches are, in source
order: leading-slash normalization of both arguments; exact equality;
trailing-slash directory patterns; `*.` extension patterns; `**` patterns
split into a head and the piece after the first `**`; bare directory names
(no `*`, no `.`); and the regular-expression fallback with its try/catch
degrade to a literal prefix/equality check. -/
def doesPatternMatch (pattern0 filePath0 : JStr) : Bool :=
  let pattern := stripLeadingSlash pattern0
  let filePath := stripLeadingSlash filePath0
  if pattern = filePath then true
  else if chEndsWith pattern ['/'] then chStartsWith filePath pattern
  else if chContains pattern ['*', '.'] then
    let extension := (chSplitOn ['*', '.'] pattern).getLastD []
    chEndsWith filePath ('.' :: extension)
  else if chContains pattern ['*', '*'] then
    let parts := chSplitOn ['*', '*'] pattern
    let hd := parts.headD []
    let tl := (parts.drop 1).headD []
    if hd ≠ [] ∧ chStartsWith filePath hd = false then false
    else if tl ≠ [] ∧ chEndsWith filePath tl = false then false
    else true
  else if ¬ chContains pattern ['*'] = true ∧ ¬ chContains pattern ['.'] = true then
    chStartsWith filePath (pattern ++ ['/'])
  else
    match buildRegexAux .start [] pattern with
    | some body =>
      if chEndsWith pattern ['/'] then rMatch (body ++ [⟨.dot, .star⟩]) filePath
      else rMatch body filePath
    | none => chStartsWith filePath pattern || decide (filePath = pattern)

/-! ### Rule parsing and owner resolution (`getFileOwners`) -/

/-- Parsing of one CODEOWNERS line as done at the top of the
`_rawCodeowners` loop of `getFileOwners` (and of `parseCodeowners`):
comment lines (leading `#`) and blank lines are skipped, the trimmed line
is split on whitespace runs into a pattern and its owners, and a line with
an empty pattern or zero owners is skipped. -/
def parseRuleLine (line : JStr) : Option (JStr × List JStr) :=
  if chStartsWith line ['#'] = true ∨ chTrim line = [] then none
  else
    match chFields (chTrim line) with
    | [] => none
    | pattern :: owners =>
      if pattern = [] ∨ owners = [] then none else some (pattern, owners)

/-- The owners of one matched rule, as stored by
`new Set(owners.filter(owner => owner !== this.prAuthor))`: the author is
removed, duplicates collapse, first-occurrence order is kept.  A `null`
author (`none`) filters nothing, like the JS `!==` comparison. -/
def authorFilter (author : Option JStr) (owners : List JStr) : List JStr :=
  jsSetOf (owners.filter (fun o => decide (¬ some o = author)))

/-- The `_rawCodeowners` branch of `getFileOwners`: iterate the lines of
the raw CODEOWNERS text in file order, and remember the (author-filtered)
owner set of the most recent rule whose pattern matches the file — GitHub's
last-match-wins precedence. -/
def ownersFromRaw (raw : JStr) (author : Option JStr) (filePath : JStr) :
    List JStr :=
  (chSplitOn ['\n'] raw).foldl
    (fun acc line =>
      match parseRuleLine line with
      | none => acc
      | some (pattern, owners) =>
        if doesPatternMatch (stripLeadingSlash pattern) filePath = true then
          authorFilter author owners
        else acc)
    []

/-- One compiled entry of `codeownersMap` as built by `parseCodeowners`:
an opaque matching predicate (the compiled `RegExp`'s `test`) together
with the original pattern text. -/
structure PatternObj where
  test : JStr → Bool
  originalPattern : JStr

/-- The immutable configuration of one analyzer instance: `_rawCodeowners`,
`prAuthor` (possibly `null`), `codeownersMap` (owner, compiled patterns)
and the `approvedReviewers` instance field (initialized to an empty set by
the constructor). -/
structure Config where
  rawCodeowners : Option JStr
  prAuthor : Option JStr
  codeownersMap : List (JStr × List PatternObj)
  approvedReviewers : List JStr

/-- The fallback branch of `getFileOwners` (taken when `_rawCodeowners` is
unavailable): collect, owner by owner over `codeownersMap` (skipping the
author), the owners of every pattern whose compiled regex matches the
file, keyed by the original pattern text. -/
def fallbackMatching (m : List (JStr × List PatternObj)) (author : Option JStr)
    (filePath : JStr) : List (JStr × List JStr) :=
  m.foldl
    (fun acc entry =>
      if some entry.1 = author then acc
      else
        entry.2.foldl
          (fun acc p =>
            if p.test filePath then mapAddVal acc p.originalPattern entry.1
            else acc)
          acc)
    []

/-- The result of the fallback branch: the owner set of the last entry of
the matching-patterns map (the code itself warns that without the ordered
source this precedence is approximate). -/
def fallbackOwners (m : List (JStr × List PatternObj)) (author : Option JStr)
    (filePath : JStr) : List JStr :=
  match (fallbackMatching m author filePath).getLast? with
  | some e => e.2
  | none => []

/-- The owner set `getFileOwners` computes for a file on a cache miss:
the last-match-wins scan of the raw text when `this._rawCodeowners` is
truthy (set and non-empty), the `codeownersMap` fallback otherwise. -/
def computeOwners (cfg : Config) (filePath : JStr) : List JStr :=
  match cfg.rawCodeowners with
  | some raw =>
    if raw = [] then fallbackOwners cfg.codeownersMap cfg.prAuthor filePath
    else ownersFromRaw raw cfg.prAuthor filePath
  | none => fallbackOwners cfg.codeownersMap cfg.prAuthor filePath

/-- The mutable per-pass state of the analyzer: the per-file owner cache
`_fileOwnersCache` and the `filesWithOwners` / `filesWithoutOwners`
tracking sets. -/
structure Tracking where
  fileOwnersCache : List (JStr × List JStr)
  filesWithOwners : List JStr
  filesWithoutOwners : List JStr
deriving DecidableEq

/-- The state the constructor initializes: empty cache, empty tracking
sets. -/
def Tracking.fresh : Tracking := ⟨[], [], []⟩

/-- Modelling the start of `updateChangedFiles` (lines 531-533): the two
tracking sets are replaced by fresh empty sets, while `_fileOwnersCache`
is left untouched. -/
def resetTrackingSets (tr : Tracking) : Tracking :=
  { tr with filesWithOwners := [], filesWithoutOwners := [] }

/-- Translation of `getFileOwners(filePath)`.  A cached file is answered
immediately from `_fileOwnersCache` — before the tracking-set code runs.
On a cache miss the owner set is computed, the file is classified into
`filesWithOwners` or `filesWithoutOwners` according to whether the set is
non-empty, and the result is cached. -/
def getFileOwners (cfg : Config) (tr : Tracking) (filePath : JStr) :
    List JStr × Tracking :=
  match alookup tr.fileOwnersCache filePath with
  | some owners => (owners, tr)
  | none =>
    let owners := computeOwners cfg filePath
    let tr' :=
      if owners ≠ [] then
        { tr with filesWithOwners := jsAdd tr.filesWithOwners filePath }
      else
        { tr with filesWithoutOwners := jsAdd tr.filesWithoutOwners filePath }
    (owners, { tr' with fileOwnersCache := tr'.fileOwnersCache ++ [(filePath, owners)] })

/-! ### Coverage analysis (`analyzeOwnership`) and combination search -/

/-- The body of the inner `fileOwners.forEach` of `analyzeOwnership`:
skip the PR author, record everyone else as owning `file`. -/
def addOwnerFile (cfg : Config) (file : JStr) (m : List (JStr × List JStr))
    (owner : JStr) : List (JStr × List JStr) :=
  if some owner = cfg.prAuthor then m else mapAddVal m owner file

/-- One iteration of the `changedFiles.forEach` loop of
`analyzeOwnership`: resolve the file's owners (mutating the tracking
state) and, if the owner set is non-empty, add the file under each
non-author owner. -/
def buildStep (cfg : Config) (acc : List (JStr × List JStr) × Tracking)
    (file : JStr) : List (JStr × List JStr) × Tracking :=
  let step := getFileOwners cfg acc.2 file
  if step.1 ≠ [] then (step.1.foldl (addOwnerFile cfg file) acc.1, step.2)
  else (acc.1, step.2)

/-- The first loop of `analyzeOwnership`: resolve every changed file and
build the `ownerToFiles` map, skipping files with empty owner sets and
skipping the PR author. -/
def buildOwnerToFiles (cfg : Config) (changedFiles : List JStr) (tr : Tracking) :
    List (JStr × List JStr) × Tracking :=
  changedFiles.foldl (buildStep cfg) ([], tr)

/-- `this.MAX_COMBINATION_SIZE` (constructor). -/
def MAX_COMBINATION_SIZE : Nat := 5

/-- `this.MAX_COMBINATIONS_TO_SHOW` (constructor). -/
def MAX_COMBINATIONS_TO_SHOW : Nat := 15

/-- Translation of `getCombinations(arr, k)`: all `k`-element
subsequences of `arr`, in the order the backtracking recursion emits them
(first all combinations containing `arr[0]`, then those from the tail). -/
def combinations {α : Type} : List α → Nat → List (List α)
  | _, 0 => [[]]
  | [], _ + 1 => []
  | a :: rest, k + 1 =>
    (combinations rest k).map (fun c => a :: c) ++ combinations rest (k + 1)

/-- The `getCoverage` helper of `findCombinedOwnerSet`: the union of the
cached file sets of the combination's members. -/
def getCoverage (ownerCoverage : List (JStr × List JStr))
    (combination : List JStr) : List JStr :=
  combination.foldl
    (fun covered owner => ((alookup ownerCoverage owner).getD []).foldl jsAdd covered)
    []

/-- The `isRedundantCombination` helper: a combination is redundant when
it contains every member of some already-accepted valid set. -/
def isRedundantCombination (combinedSets : List (List JStr))
    (combination : List JStr) : Bool :=
  combinedSets.any (fun validSet => validSet.all (fun owner => decide (owner ∈ combination)))

/-- One iteration of the inner combination loop, with the `break
combinationLoop` early exit modelled by the Boolean stop flag: once the
result cap has been observed the whole remaining search is skipped. -/
def comboStep (target : Nat) (ownerCoverage : List (JStr × List JStr))
    (acc : List (List JStr) × Bool) (combination : List JStr) :
    List (List JStr) × Bool :=
  if acc.2 then acc
  else if MAX_COMBINATIONS_TO_SHOW ≤ acc.1.length then (acc.1, true)
  else if isRedundantCombination acc.1 combination then acc
  else if (getCoverage ownerCoverage combination).length = target then
    (acc.1 ++ [combination], false)
  else acc

/-- The subset sizes tried by the outer loop:
`for (let i = 2; i <= Math.min(MAX_COMBINATION_SIZE, partialOwners.length); i++)`. -/
def comboSizes (n : Nat) : List Nat :=
  (List.range (Nat.min MAX_COMBINATION_SIZE n + 1)).drop 2

/-- Number of members of a combination present in the given approved set
(`combination.filter(owner => approved.has(owner)).length`). -/
def approvedCount (approved : List JStr) (s : List JStr) : Nat :=
  (s.filter (fun o => decide (o ∈ approved))).length

/-- The sort comparator of `findCombinedOwnerSet` as a Boolean
less-or-equal: first ascending length, then descending approved-member
count.  `approved` is the `this.approvedReviewers` instance field. -/
def comboLE (approved : List JStr) (a b : List JStr) : Bool :=
  decide (a.length < b.length) ||
    (decide (a.length = b.length) &&
      decide (approvedCount approved b ≤ approvedCount approved a))

/-- Stable insertion of an element into a sorted list (helper for
`sortLE`). -/
def insertLE {α : Type} (le : α → α → Bool) (a : α) : List α → List α
  | [] => [a]
  | b :: l => if le a b then a :: b :: l else b :: insertLE le a l

/-- Stable comparator sort, modelling `Array.prototype.sort` (stable per
the ECMAScript specification). -/
def sortLE {α : Type} (le : α → α → Bool) : List α → List α
  | [] => []
  | a :: l => insertLE le a (sortLE le l)

/-- The full-coverage owner set recomputed at the top of
`findCombinedOwnerSet` (unlike the one in `analyzeOwnership`, this one
also skips the PR author explicitly). -/
def fullCoverageOwnersIn (cfg : Config) (tr : Tracking)
    (m : List (JStr × List JStr)) : List JStr :=
  (m.filter (fun e =>
    decide (¬ some e.1 = cfg.prAuthor) &&
      decide (e.2.length = tr.filesWithOwners.length))).map Prod.fst

/-- The `partialOwners` candidate pool of `findCombinedOwnerSet`: owners
that are neither full-coverage nor the PR author. -/
def remainingOwnersIn (cfg : Config) (tr : Tracking)
    (m : List (JStr × List JStr)) : List JStr :=
  (m.map Prod.fst).filter (fun o =>
    decide (o ∉ fullCoverageOwnersIn cfg tr m) && decide (¬ some o = cfg.prAuthor))

/-- The `ownerCoverage` cache of `findCombinedOwnerSet`: each partial
owner's file set copied out of `ownerToFiles`. -/
def ownerCoverageIn (cfg : Config) (tr : Tracking)
    (m : List (JStr × List JStr)) : List (JStr × List JStr) :=
  (remainingOwnersIn cfg tr m).map (fun o => (o, (alookup m o).getD []))

/-- All candidate combinations in the order the nested loops of
`findCombinedOwnerSet` generate them: sizes ascending from 2 to
`min(MAX_COMBINATION_SIZE, partialOwners.length)`, backtracking order
within one size. -/
def allCombosIn (cfg : Config) (tr : Tracking)
    (m : List (JStr × List JStr)) : List (List JStr) :=
  (comboSizes (remainingOwnersIn cfg tr m).length).flatMap
    (fun k => combinations (remainingOwnersIn cfg tr m) k)

/-- The accepted combinations of `findCombinedOwnerSet`, before the final
sort. -/
def acceptedIn (cfg : Config) (tr : Tracking)
    (m : List (JStr × List JStr)) : List (List JStr) :=
  ((allCombosIn cfg tr m).foldl
    (comboStep tr.filesWithOwners.length (ownerCoverageIn cfg tr m))
    ([], false)).1

/-- Translation of `findCombinedOwnerSet(ownerToFiles)`: recompute the
full-coverage owners, drop them and the author to obtain the partial
owners, enumerate combinations of sizes `2..min(MAX_COMBINATION_SIZE, n)`
(stopping the whole search at `MAX_COMBINATIONS_TO_SHOW` accepted sets,
skipping supersets of accepted sets, accepting exactly the combinations
whose covered-file count equals `filesWithOwners.size`), and finally sort
by ascending size with the approved-count tie-break against the
`approvedReviewers` instance field. -/
def findCombinedOwnerSet (cfg : Config) (tr : Tracking)
    (ownerToFiles : List (JStr × List JStr)) : List (List JStr) :=
  if remainingOwnersIn cfg tr ownerToFiles = [] then []
  else
    sortLE (comboLE cfg.approvedReviewers) (acceptedIn cfg tr ownerToFiles)

/-- The result object of `analyzeOwnership`. -/
structure AnalyzeResult where
  fullCoverageOwners : List JStr
  combinedSets : List (List JStr)
  statsTotal : Nat
  statsWithOwners : Nat
  statsWithoutOwners : Nat
deriving DecidableEq

/-- Translation of `analyzeOwnership()`: build `ownerToFiles` over the
changed files, classify as full-coverage every owner whose file count
equals `filesWithOwners.size`, run the combination search, and report the
file statistics. -/
def analyzeOwnership (cfg : Config) (changedFiles : List JStr) (tr : Tracking) :
    AnalyzeResult × Tracking :=
  let built := buildOwnerToFiles cfg changedFiles tr
  let fullCoverage :=
    (built.1.filter (fun e =>
      decide (e.2.length = built.2.filesWithOwners.length))).map Prod.fst
  let combinedSets := findCombinedOwnerSet cfg built.2 built.1
  ({ fullCoverageOwners := fullCoverage
     combinedSets := combinedSets
     statsTotal := (jsSetOf changedFiles).length
     statsWithOwners := built.2.filesWithOwners.length
     statsWithoutOwners := built.2.filesWithoutOwners.length },
   built.2)

/-- One analysis pass from the freshly-constructed analyzer state (the
constructor initializes an empty cache and empty tracking sets; the spec's
lifecycle contract forbids reusing caches across passes). -/
def runAnalysis (cfg : Config) (changedFiles : List JStr) : AnalyzeResult :=
  (analyzeOwnership cfg changedFiles Tracking.fresh).1

/-- The tracking state after one fresh analysis pass. -/
def passTracking (cfg : Config) (changedFiles : List JStr) : Tracking :=
  (analyzeOwnership cfg changedFiles Tracking.fresh).2

/-- The `ownerToFiles` map built during one fresh analysis pass. -/
def ownerToFilesOf (cfg : Config) (changedFiles : List JStr) :
    List (JStr × List JStr) :=
  (buildOwnerToFiles cfg changedFiles Tracking.fresh).1

/-- The parsed rule list of a raw CODEOWNERS text: the pattern/owner pairs
of its non-comment, non-blank, owner-bearing lines in file-declaration
order. -/
def parsedRules (raw : JStr) : List (JStr × List JStr) :=
  (chSplitOn ['\n'] raw).filterMap parseRuleLine

/-- Union of the `ownerToFiles` file sets of a combination's members (the
set-level reading of `getCoverage`, over the map itself). -/
def unionFilesOf (m : List (JStr × List JStr)) (s : List JStr) : List JStr :=
  s.foldl (fun acc o => ((alookup m o).getD []).foldl jsAdd acc) []

/-- Whether the analyzer computes a non-empty owner set for a file (the
`lastMatchedOwners.size > 0` test of `getFileOwners`). -/
def hasOwners (cfg : Config) (f : JStr) : Bool :=
  decide (computeOwners cfg f ≠ [])

/-- Closed form of the tracking state after querying the files of `qs`
(in order, possibly with repetitions) starting from the fresh state: the
cache maps each distinct file to its computed owners, and the tracking
sets partition the distinct queried files by owner-set emptiness. -/
def trackingOf (cfg : Config) (qs : List JStr) : Tracking :=
  ⟨(jsSetOf qs).map (fun f => (f, computeOwners cfg f)),
   (jsSetOf qs).filter (hasOwners cfg),
   (jsSetOf qs).filter (fun f => !hasOwners cfg f)⟩

/-- Stateless counterpart of `buildStep`: how `ownerToFiles` grows by one
file whose owners are computed directly. -/
def pureStep (cfg : Config) (m : List (JStr × List JStr)) (file : JStr) :
    List (JStr × List JStr) :=
  if computeOwners cfg file ≠ [] then
    (computeOwners cfg file).foldl (addOwnerFile cfg file) m
  else m

/-- Closed form of the `ownerToFiles` map of one fresh analysis pass. -/
def ownerMapPure (cfg : Config) (files : List JStr) :
    List (JStr × List JStr) :=
  files.foldl (pureStep cfg) []

/-! ### Specification-side pattern matcher (for the refinement claim) -/

/-- The fallback translation exactly as the specification's rule (6)
words it: dots escaped (kept literal), `**` mapping to "match anything",
`*` to "match anything except `/`", every other character literal. -/
def specPieces : JStr → List RPiece
  | [] => []
  | '*' :: '*' :: rest => ⟨.dot, .star⟩ :: specPieces rest
  | '*' :: rest => ⟨.nonSlash, .star⟩ :: specPieces rest
  | c :: rest => ⟨.lit c, .one⟩ :: specPieces rest

/-- The pattern-matching decision procedure exactly as the specification
states it, the first applicable rule deciding: (1) exact equality after
stripping leading slashes from both; (2) trailing-`/` patterns match by
path prefix; (3) patterns containing `*.` match iff the path ends with
`.` plus the suffix after the last `*.` (no directory-prefix condition);
(4) patterns containing `**` split on `**` and require the path to start
with the non-empty head and to end with the non-empty tail; (5) patterns
with no `*` and no `.` match iff the path starts with the pattern plus
`/`; (6) otherwise the regex translation — dots escaped, `**` matching
anything, `*` matching anything but `/`, every other character literal,
anchored at the start and, unless the pattern ends with a separator, at
the end. -/
def patternMatchSpec (pattern0 filePath0 : JStr) : Bool :=
  let pattern := stripLeadingSlash pattern0
  let filePath := stripLeadingSlash filePath0
  if pattern = filePath then true
  else if chEndsWith pattern ['/'] then chStartsWith filePath pattern
  else if chContains pattern ['*', '.'] then
    chEndsWith filePath ('.' :: (chSplitOn ['*', '.'] pattern).getLastD [])
  else if chContains pattern ['*', '*'] then
    let parts := chSplitOn ['*', '*'] pattern
    decide ((parts.headD [] = [] ∨ chStartsWith filePath (parts.headD []) = true) ∧
      ((parts.drop 1).headD [] = [] ∨ chEndsWith filePath ((parts.drop 1).headD []) = true))
  else if ¬ chContains pattern ['*'] = true ∧ ¬ chContains pattern ['.'] = true then
    chStartsWith filePath (pattern ++ ['/'])
  else
    if chEndsWith pattern ['/'] then
      rMatch (specPieces pattern ++ [⟨.dot, .star⟩]) filePath
    else rMatch (specPieces pattern) filePath

/-- The regex metacharacters that survive the fallback translation
unescaped (the code escapes only dots; `*` is rewritten to `[^/]*`). -/
def jsRegexSpecials : List Char :=
  ['+', '?', '(', ')', '[', ']', '{', '}', '|', '^', '$', '\\']

/-- A pattern carrying no regular-expression metacharacter beyond `*` and
`.`: for such patterns the fallback's constructed expression is the plain
literal/star translation and its construction cannot throw. -/
def regexSafe (p : JStr) : Bool :=
  p.all (fun c => decide (c ∉ jsRegexSpecials))

/-- Invariant of the `ownerToFiles` map built by `analyzeOwnership`:
keys are distinct and never the PR author, and every value set is
duplicate-free with all members satisfying `Q` (instantiated with
membership in the final files-with-owners set). -/
def MapInv (cfg : Config) (Q : JStr → Prop) (m : List (JStr × List JStr)) : Prop :=
  (m.map Prod.fst).Nodup ∧
  (∀ e ∈ m, ¬ some e.1 = cfg.prAuthor) ∧
  (∀ e ∈ m, e.2.Nodup ∧ ∀ x ∈ e.2, Q x)

/-- Invariant of the combination-search fold: the accepted list is a
subsequence of the processed candidates, respects the result cap, every
accepted set covers exactly `target` files, and no accepted set contains
all members of an earlier one (the redundancy pruning). -/
def SearchInv (target : Nat) (cov : List (JStr × List JStr))
    (pre : List (List JStr)) (acc : List (List JStr) × Bool) : Prop :=
  acc.1.Sublist pre ∧
  acc.1.length ≤ MAX_COMBINATIONS_TO_SHOW ∧
  (∀ s ∈ acc.1, (getCoverage cov s).length = target) ∧
  acc.1.Pairwise (fun a b => ¬ ∀ x ∈ a, x ∈ b)

/-! ## Lemmas about the collection primitives -/

theorem mem_jsAdd {α : Type} [DecidableEq α] (l : List α) (a x : α) :
    x ∈ jsAdd l a ↔ x ∈ l ∨ x = a := by
  unfold jsAdd
  split
  · rename_i h
    constructor
    · exact .inl
    · rintro (hx | rfl) <;> [exact hx; exact h]
  · simp

theorem jsAdd_nodup {α : Type} [DecidableEq α] {l : List α} (h : l.Nodup) (a : α) :
    (jsAdd l a).Nodup := by
  unfold jsAdd
  split
  · exact h
  · rename_i ha
    rw [List.nodup_append]
    refine ⟨h, List.nodup_singleton a, ?_⟩
    intro x hx hxa
    rw [List.mem_singleton] at hxa
    subst hxa
    exact ha hx

theorem mem_foldl_jsAdd {α : Type} [DecidableEq α] (l : List α) :
    ∀ (acc : List α) (x : α), x ∈ l.foldl jsAdd acc ↔ x ∈ acc ∨ x ∈ l := by
  induction l with
  | nil => simp
  | cons a t ih =>
    intro acc x
    simp only [List.foldl_cons, ih, mem_jsAdd, List.mem_cons]
    constructor
    · rintro ((hx | rfl) | hx) <;> tauto
    · rintro (hx | rfl | hx) <;> tauto

theorem foldl_jsAdd_nodup {α : Type} [DecidableEq α] (l : List α) :
    ∀ {acc : List α}, acc.Nodup → (l.foldl jsAdd acc).Nodup := by
  induction l with
  | nil => intro acc h; exact h
  | cons a t ih => intro acc h; exact ih (jsAdd_nodup h a)

theorem mem_jsSetOf {α : Type} [DecidableEq α] (l : List α) (x : α) :
    x ∈ jsSetOf l ↔ x ∈ l := by
  simp [jsSetOf, mem_foldl_jsAdd]

theorem jsSetOf_nodup {α : Type} [DecidableEq α] (l : List α) :
    (jsSetOf l).Nodup :=
  foldl_jsAdd_nodup l List.nodup_nil

theorem jsSetOf_append_singleton {α : Type} [DecidableEq α] (l : List α) (a : α) :
    jsSetOf (l ++ [a]) = jsAdd (jsSetOf l) a := by
  simp [jsSetOf, List.foldl_append]

theorem alookup_mem {β : Type} {m : List (JStr × β)} {k : JStr} {v : β}
    (h : alookup m k = some v) : (k, v) ∈ m := by
  induction m with
  | nil => simp [alookup] at h
  | cons e t ih =>
    obtain ⟨k', v'⟩ := e
    by_cases hk : k' = k
    · subst hk
      simp [alookup] at h
      simp [h]
    · simp only [alookup, if_neg hk] at h
      exact List.mem_cons_of_mem _ (ih h)

theorem alookup_map_self {β : Type} (g : JStr → β) (l : List JStr) (k : JStr) :
    alookup (l.map (fun f => (f, g f))) k =
      if k ∈ l then some (g k) else none := by
  induction l with
  | nil => simp [alookup]
  | cons a t ih =>
    by_cases hk : a = k
    · subst hk
      simp [alookup]
    · simp [alookup, hk, ih, Ne.symm hk]

theorem mapAddVal_keys (m : List (JStr × List JStr)) (k v : JStr) :
    (mapAddVal m k v).map Prod.fst =
      if k ∈ m.map Prod.fst then m.map Prod.fst else m.map Prod.fst ++ [k] := by
  induction m with
  | nil => simp [mapAddVal]
  | cons e t ih =>
    obtain ⟨k', vs⟩ := e
    by_cases hk : k' = k
    · subst hk
      simp [mapAddVal]
    · simp only [mapAddVal, if_neg hk, List.map_cons, ih]
      by_cases hmem : k ∈ t.map Prod.fst <;>
        simp [hmem, hk, Ne.symm hk]

theorem mapAddVal_keys_nodup {m : List (JStr × List JStr)}
    (h : (m.map Prod.fst).Nodup) (k v : JStr) :
    ((mapAddVal m k v).map Prod.fst).Nodup := by
  rw [mapAddVal_keys]
  split
  · exact h
  · rename_i hk
    rw [List.nodup_append]
    refine ⟨h, List.nodup_singleton k, ?_⟩
    intro x hx hxk
    rw [List.mem_singleton] at hxk
    subst hxk
    exact hk hx

theorem mapAddVal_forall {Q : JStr → List JStr → Prop}
    {m : List (JStr × List JStr)} {k v : JStr}
    (hm : ∀ e ∈ m, Q e.1 e.2)
    (hgrow : ∀ vs, Q k vs → Q k (jsAdd vs v))
    (hnew : Q k [v]) :
    ∀ e ∈ mapAddVal m k v, Q e.1 e.2 := by
  induction m with
  | nil =>
    intro e he
    simp only [mapAddVal, List.mem_singleton] at he
    subst he
    exact hnew
  | cons e0 t ih =>
    obtain ⟨k', vs⟩ := e0
    intro e he
    simp only [mapAddVal] at he
    split at he
    · rename_i hk
      subst hk
      rcases List.mem_cons.mp he with rfl | he
      · exact hgrow vs (hm (k', vs) (by simp))
      · exact hm e (List.mem_cons_of_mem _ he)
    · rcases List.mem_cons.mp he with rfl | he
      · exact hm (k', vs) (by simp)
      · exact ih (fun e' he' => hm e' (List.mem_cons_of_mem _ he')) e he

theorem subset_of_subset_of_length_le {l₁ l₂ : List JStr}
    (hnd : l₂.Nodup) (hsub : ∀ x ∈ l₂, x ∈ l₁) (hlen : l₁.length ≤ l₂.length) :
    ∀ x ∈ l₁, x ∈ l₂ := by
  have hsubF : l₂.toFinset ⊆ l₁.toFinset := by
    intro x hx
    exact List.mem_toFinset.mpr (hsub x (List.mem_toFinset.mp hx))
  have hcard : l₁.toFinset.card ≤ l₂.toFinset.card := by
    calc l₁.toFinset.card ≤ l₁.length := List.toFinset_card_le l₁
    _ ≤ l₂.length := hlen
    _ = l₂.toFinset.card := (List.toFinset_card_of_nodup hnd).symm
  have := Finset.eq_of_subset_of_card_le hsubF hcard
  intro x hx
  exact List.mem_toFinset.mp (this ▸ List.mem_toFinset.mpr hx)

theorem mem_map_fst_filter {m : List (JStr × List JStr)}
    (hk : (m.map Prod.fst).Nodup) (q : JStr × List JStr → Bool) (o : JStr) :
    o ∈ (m.filter q).map Prod.fst ↔
      ∃ fs, alookup m o = some fs ∧ q (o, fs) = true := by
  induction m with
  | nil => simp [alookup]
  | cons e t ih =>
    obtain ⟨k, vs⟩ := e
    simp only [List.map_cons, List.nodup_cons] at hk
    by_cases hko : k = o
    · subst hko
      simp only [alookup, if_pos rfl]
      constructor
      · intro hmem
        by_cases hq : q (k, vs) = true
        · exact ⟨vs, rfl, hq⟩
        · exfalso
          simp only [List.filter_cons, hq] at hmem
          simp only [Bool.false_eq_true, if_false] at hmem
          have : k ∈ t.map Prod.fst :=
            List.mem_map.mpr (by
              obtain ⟨e', he', heq⟩ := List.mem_map.mp hmem
              exact ⟨e', (List.mem_filter.mp he').1, heq⟩)
          exact hk.1 this
      · rintro ⟨fs, hfs, hq⟩
        obtain rfl : vs = fs := by simpa using hfs
        simp [List.filter_cons, hq]
    · simp only [alookup, if_neg hko]
      rw [← ih hk.2]
      simp only [List.filter_cons]
      by_cases hq : q (k, vs) = true
      · simp [hq, Ne.symm hko]
      · simp [hq]

/-! ## Closed form of the tracked owner-resolution state -/

theorem jsAdd_of_mem {α : Type} [DecidableEq α] {l : List α} {a : α}
    (h : a ∈ l) : jsAdd l a = l := by
  simp [jsAdd, h]

theorem jsAdd_of_not_mem {α : Type} [DecidableEq α] {l : List α} {a : α}
    (h : a ∉ l) : jsAdd l a = l ++ [a] := by
  simp [jsAdd, h]

theorem trackingOf_nil (cfg : Config) : trackingOf cfg [] = Tracking.fresh := rfl

theorem getFileOwners_trackingOf (cfg : Config) (qs : List JStr) (f : JStr) :
    getFileOwners cfg (trackingOf cfg qs) f =
      (computeOwners cfg f, trackingOf cfg (qs ++ [f])) := by
  have hsplit : jsSetOf (qs ++ [f]) = jsAdd (jsSetOf qs) f :=
    jsSetOf_append_singleton qs f
  have hcache : alookup (trackingOf cfg qs).fileOwnersCache f =
      if f ∈ jsSetOf qs then some (computeOwners cfg f) else none :=
    alookup_map_self (fun f => computeOwners cfg f) (jsSetOf qs) f
  by_cases hin : f ∈ jsSetOf qs
  · have htr : trackingOf cfg (qs ++ [f]) = trackingOf cfg qs := by
      unfold trackingOf
      rw [hsplit, jsAdd_of_mem hin]
    rw [htr]
    unfold getFileOwners
    rw [hcache, if_pos hin]
  · have hW : f ∉ (jsSetOf qs).filter (hasOwners cfg) :=
      fun hmem => hin (List.mem_filter.mp hmem).1
    have hWo : f ∉ (jsSetOf qs).filter (fun f => !hasOwners cfg f) :=
      fun hmem => hin (List.mem_filter.mp hmem).1
    unfold getFileOwners
    rw [hcache, if_neg hin]
    by_cases howners : computeOwners cfg f ≠ []
    · have hb : hasOwners cfg f = true := by simp [hasOwners, howners]
      simp only [if_pos howners]
      unfold trackingOf
      rw [hsplit, jsAdd_of_not_mem hin, jsAdd_of_not_mem hW]
      simp [List.filter_append, List.map_append, List.filter_cons, hb]
    · have hb : hasOwners cfg f = false := by
        simp only [not_not] at howners
        simp [hasOwners, howners]
      simp only [if_neg howners]
      unfold trackingOf
      rw [hsplit, jsAdd_of_not_mem hin, jsAdd_of_not_mem hWo]
      simp [List.filter_append, List.map_append, List.filter_cons, hb]

theorem foldl_getFileOwners_trackingOf (cfg : Config) :
    ∀ (files qs : List JStr),
      files.foldl (fun tr f => (getFileOwners cfg tr f).2) (trackingOf cfg qs) =
        trackingOf cfg (qs ++ files) := by
  intro files
  induction files with
  | nil => intro qs; simp
  | cons f rest ih =>
    intro qs
    have hstep : (getFileOwners cfg (trackingOf cfg qs) f).2 =
        trackingOf cfg (qs ++ [f]) := by
      rw [getFileOwners_trackingOf]
    calc (f :: rest).foldl (fun tr f => (getFileOwners cfg tr f).2) (trackingOf cfg qs)
        = rest.foldl (fun tr f => (getFileOwners cfg tr f).2) (trackingOf cfg (qs ++ [f])) := by
          rw [List.foldl_cons, hstep]
      _ = trackingOf cfg ((qs ++ [f]) ++ rest) := ih (qs ++ [f])
      _ = trackingOf cfg (qs ++ f :: rest) := by simp

theorem build_go (cfg : Config) :
    ∀ (files qs : List JStr) (m : List (JStr × List JStr)),
      files.foldl (buildStep cfg) (m, trackingOf cfg qs) =
        (files.foldl (pureStep cfg) m, trackingOf cfg (qs ++ files)) := by
  intro files
  induction files with
  | nil => intro qs m; simp
  | cons f rest ih =>
    intro qs m
    have hstep : buildStep cfg (m, trackingOf cfg qs) f =
        (pureStep cfg m f, trackingOf cfg (qs ++ [f])) := by
      unfold buildStep pureStep
      rw [getFileOwners_trackingOf]
      by_cases h : computeOwners cfg f ≠ []
      · simp only [if_pos h]
      · simp only [if_neg h]
    calc (f :: rest).foldl (buildStep cfg) (m, trackingOf cfg qs)
        = rest.foldl (buildStep cfg) (pureStep cfg m f, trackingOf cfg (qs ++ [f])) := by
          rw [List.foldl_cons, hstep]
      _ = (rest.foldl (pureStep cfg) (pureStep cfg m f), trackingOf cfg ((qs ++ [f]) ++ rest)) :=
          ih (qs ++ [f]) (pureStep cfg m f)
      _ = ((f :: rest).foldl (pureStep cfg) m, trackingOf cfg (qs ++ f :: rest)) := by simp

theorem buildOwnerToFiles_eq (cfg : Config) (files : List JStr) :
    buildOwnerToFiles cfg files Tracking.fresh =
      (ownerMapPure cfg files, trackingOf cfg files) := by
  have := build_go cfg files [] []
  simpa [buildOwnerToFiles, ownerMapPure, trackingOf_nil] using this

/-! ## Invariants of the `ownerToFiles` map -/

theorem addOwnerFile_inv {cfg : Config} {Q : JStr → Prop}
    {m : List (JStr × List JStr)} {file : JStr}
    (hm : MapInv cfg Q m) (hf : Q file) (owner : JStr) :
    MapInv cfg Q (addOwnerFile cfg file m owner) := by
  obtain ⟨hkeys, hauthor, hvals⟩ := hm
  unfold addOwnerFile
  split
  · exact ⟨hkeys, hauthor, hvals⟩
  · rename_i hown
    refine ⟨mapAddVal_keys_nodup hkeys owner file, ?_, ?_⟩
    · have := mapAddVal_forall (Q := fun k _ => ¬ some k = cfg.prAuthor)
        (m := m) (k := owner) (v := file)
        (fun e he => hauthor e he) (fun _ h => h) hown
      exact fun e he => this e he
    · have := mapAddVal_forall (Q := fun _ vs => vs.Nodup ∧ ∀ x ∈ vs, Q x)
        (m := m) (k := owner) (v := file)
        (fun e he => hvals e he)
        (fun vs hvs => ⟨jsAdd_nodup hvs.1 file, fun x hx => by
          rcases (mem_jsAdd vs file x).mp hx with h | rfl
          · exact hvs.2 x h
          · exact hf⟩)
        ⟨List.nodup_singleton file, fun x hx => by
          rw [List.mem_singleton] at hx
          subst hx
          exact hf⟩
      exact fun e he => this e he

theorem foldl_addOwnerFile_inv {cfg : Config} {Q : JStr → Prop} {file : JStr}
    (owners : List JStr) :
    ∀ {m : List (JStr × List JStr)}, MapInv cfg Q m → Q file →
      MapInv cfg Q (owners.foldl (addOwnerFile cfg file) m) := by
  induction owners with
  | nil => intro m hm _; exact hm
  | cons o rest ih =>
    intro m hm hf
    exact ih (addOwnerFile_inv hm hf o) hf

theorem pureStep_inv {cfg : Config} {Q : JStr → Prop}
    {m : List (JStr × List JStr)} {file : JStr}
    (hm : MapInv cfg Q m) (hf : computeOwners cfg file ≠ [] → Q file) :
    MapInv cfg Q (pureStep cfg m file) := by
  unfold pureStep
  split
  · rename_i h
    exact foldl_addOwnerFile_inv _ hm (hf h)
  · exact hm

theorem ownerMapPure_inv (cfg : Config) (Q : JStr → Prop) (files : List JStr)
    (hQ : ∀ f ∈ files, computeOwners cfg f ≠ [] → Q f) :
    MapInv cfg Q (ownerMapPure cfg files) := by
  have base : MapInv cfg Q [] := by
    refine ⟨List.nodup_nil, ?_, ?_⟩ <;> intro e he <;> simp at he
  have go : ∀ (fs : List JStr) (m : List (JStr × List JStr)),
      (∀ f ∈ fs, computeOwners cfg f ≠ [] → Q f) → MapInv cfg Q m →
        MapInv cfg Q (fs.foldl (pureStep cfg) m) := by
    intro fs
    induction fs with
    | nil => intro m _ hm; exact hm
    | cons f rest ih =>
      intro m hfs hm
      exact ih _ (fun g hg => hfs g (List.mem_cons_of_mem _ hg))
        (pureStep_inv hm (hfs f (List.mem_cons_self f rest)))
  exact go files [] hQ base

theorem ownerMapPure_of_all_empty (cfg : Config)
    (h : ∀ f, computeOwners cfg f = []) (files : List JStr) :
    ownerMapPure cfg files = [] := by
  have go : ∀ (fs : List JStr) (m : List (JStr × List JStr)),
      fs.foldl (pureStep cfg) m = m := by
    intro fs
    induction fs with
    | nil => intro m; rfl
    | cons f rest ih =>
      intro m
      rw [List.foldl_cons]
      have : pureStep cfg m f = m := by simp [pureStep, h f]
      rw [this, ih]
  exact go files []

/-! ## Lemmas about the combination search -/

theorem length_of_mem_combinations {α : Type} :
    ∀ (arr : List α) (k : Nat) (s : List α), s ∈ combinations arr k → s.length = k := by
  intro arr
  induction arr with
  | nil =>
    intro k s hs
    cases k with
    | zero => simp [combinations] at hs; simp [hs]
    | succ k => simp [combinations] at hs
  | cons a rest ih =>
    intro k s hs
    cases k with
    | zero => simp [combinations] at hs; simp [hs]
    | succ k =>
      simp only [combinations, List.mem_append, List.mem_map] at hs
      rcases hs with ⟨c, hc, rfl⟩ | hs
      · simp [ih k c hc]
      · exact ih (k + 1) s hs

theorem sublist_of_mem_combinations {α : Type} :
    ∀ (arr : List α) (k : Nat) (s : List α), s ∈ combinations arr k → s.Sublist arr := by
  intro arr
  induction arr with
  | nil =>
    intro k s hs
    cases k with
    | zero => simp [combinations] at hs; simp [hs]
    | succ k => simp [combinations] at hs
  | cons a rest ih =>
    intro k s hs
    cases k with
    | zero =>
      simp [combinations] at hs
      simp [hs]
    | succ k =>
      simp only [combinations, List.mem_append, List.mem_map] at hs
      rcases hs with ⟨c, hc, rfl⟩ | hs
      · exact List.Sublist.cons₂ a (ih k c hc)
      · exact List.Sublist.cons a (ih (k + 1) s hs)

theorem mem_comboSizes {n k : Nat} (hk : k ∈ comboSizes n) :
    2 ≤ k ∧ k ≤ MAX_COMBINATION_SIZE ∧ k ≤ n := by
  unfold comboSizes at hk
  have hrange : k ∈ List.range (Nat.min MAX_COMBINATION_SIZE n + 1) :=
    List.mem_of_mem_drop hk
  have hupper : k ≤ Nat.min MAX_COMBINATION_SIZE n := by
    have := List.mem_range.mp hrange
    omega
  have hlower : 2 ≤ k := by
    obtain ⟨i, hi, hik⟩ := List.mem_iff_getElem.mp hk
    rw [List.getElem_drop, List.getElem_range] at hik
    omega
  exact ⟨hlower, le_trans hupper (Nat.min_le_left _ _), le_trans hupper (Nat.min_le_right _ _)⟩

theorem pairwise_le_comboSizes (n : Nat) : (comboSizes n).Pairwise (· ≤ ·) := by
  unfold comboSizes
  have h1 : (List.range (Nat.min MAX_COMBINATION_SIZE n + 1)).Pairwise (· < ·) :=
    List.pairwise_lt_range _
  have h2 := h1.sublist (List.drop_sublist 2 _)
  exact h2.imp Nat.le_of_lt

theorem pairwise_length_flatMap {α : Type} (arr : List α) :
    ∀ (sizes : List Nat), sizes.Pairwise (· ≤ ·) →
      (sizes.flatMap (fun k => combinations arr k)).Pairwise
        (fun a b => a.length ≤ b.length) := by
  intro sizes
  induction sizes with
  | nil => intro _; simp
  | cons k rest ih =>
    intro hp
    rw [List.pairwise_cons] at hp
    rw [List.flatMap_cons, List.pairwise_append]
    refine ⟨?_, ih hp.2, ?_⟩
    · refine List.pairwise_of_forall_mem_list ?_
      intro a ha b hb
      rw [length_of_mem_combinations arr k a ha,
        length_of_mem_combinations arr k b hb]
    · intro a ha b hb
      obtain ⟨k', hk', hbk'⟩ := List.mem_flatMap.mp hb
      rw [length_of_mem_combinations arr k a ha,
        length_of_mem_combinations arr k' b hbk']
      exact hp.1 k' hk'

theorem not_subset_of_not_redundant {sets : List (List JStr)} {c : List JStr}
    (h : isRedundantCombination sets c = false) :
    ∀ a ∈ sets, ¬ ∀ x ∈ a, x ∈ c := by
  intro a ha hsub
  have : isRedundantCombination sets c = true := by
    unfold isRedundantCombination
    rw [List.any_eq_true]
    refine ⟨a, ha, ?_⟩
    rw [List.all_eq_true]
    intro x hx
    exact decide_eq_true_eq.mpr (hsub x hx)
  rw [this] at h
  cases h

theorem comboStep_inv {target : Nat} {cov : List (JStr × List JStr)}
    {pre : List (List JStr)} {acc : List (List JStr) × Bool} {c : List JStr}
    (h : SearchInv target cov pre acc) :
    SearchInv target cov (pre ++ [c]) (comboStep target cov acc c) := by
  obtain ⟨hsub, hlen, hcovr, hpair⟩ := h
  have hext : acc.1.Sublist (pre ++ [c]) :=
    hsub.trans (List.sublist_append_left pre [c])
  unfold comboStep
  by_cases hstop : acc.2
  · rw [if_pos hstop]
    exact ⟨hext, hlen, hcovr, hpair⟩
  · rw [if_neg hstop]
    by_cases hcap : MAX_COMBINATIONS_TO_SHOW ≤ acc.1.length
    · rw [if_pos hcap]
      exact ⟨hext, hlen, hcovr, hpair⟩
    · rw [if_neg hcap]
      by_cases hred : isRedundantCombination acc.1 c
      · rw [if_pos hred]
        exact ⟨hext, hlen, hcovr, hpair⟩
      · rw [if_neg hred]
        by_cases hcover : (getCoverage cov c).length = target
        · rw [if_pos hcover]
          refine ⟨List.Sublist.append hsub (List.Sublist.refl [c]), ?_, ?_, ?_⟩
          · simp only [List.length_append, List.length_singleton]
            unfold MAX_COMBINATIONS_TO_SHOW at hcap ⊢
            omega
          · intro s hs
            rcases List.mem_append.mp hs with hs | hs
            · exact hcovr s hs
            · rw [List.mem_singleton] at hs
              subst hs
              exact hcover
          · rw [List.pairwise_append]
            refine ⟨hpair, List.pairwise_singleton _ c, ?_⟩
            intro a ha b hb
            rw [List.mem_singleton] at hb
            subst hb
            exact not_subset_of_not_redundant (Bool.eq_false_iff.mpr hred) a ha
        · rw [if_neg hcover]
          exact ⟨hext, hlen, hcovr, hpair⟩

theorem searchFold_inv (target : Nat) (cov : List (JStr × List JStr)) :
    ∀ (combos pre : List (List JStr)) (acc : List (List JStr) × Bool),
      SearchInv target cov pre acc →
      SearchInv target cov (pre ++ combos)
        (combos.foldl (comboStep target cov) acc) := by
  intro combos
  induction combos with
  | nil => intro pre acc h; simpa using h
  | cons c rest ih =>
    intro pre acc h
    have h1 := comboStep_inv (c := c) h
    have h2 := ih (pre ++ [c]) _ h1
    simpa using h2

theorem acceptedIn_inv (cfg : Config) (tr : Tracking)
    (m : List (JStr × List JStr)) :
    (acceptedIn cfg tr m).Sublist (allCombosIn cfg tr m) ∧
    (acceptedIn cfg tr m).length ≤ MAX_COMBINATIONS_TO_SHOW ∧
    (∀ s ∈ acceptedIn cfg tr m,
      (getCoverage (ownerCoverageIn cfg tr m) s).length = tr.filesWithOwners.length) ∧
    (acceptedIn cfg tr m).Pairwise (fun a b => ¬ ∀ x ∈ a, x ∈ b) := by
  have hbase : SearchInv tr.filesWithOwners.length (ownerCoverageIn cfg tr m)
      [] ([], false) := by
    refine ⟨List.nil_sublist [], ?_, ?_, List.Pairwise.nil⟩
    · simp [MAX_COMBINATIONS_TO_SHOW]
    · intro s hs; simp at hs
  have := searchFold_inv tr.filesWithOwners.length (ownerCoverageIn cfg tr m)
    (allCombosIn cfg tr m) [] ([], false) hbase
  simp only [List.nil_append] at this
  exact this

/-! ## Lemmas about the final sort -/

theorem insertLE_perm {α : Type} (le : α → α → Bool) (a : α) :
    ∀ l : List α, (insertLE le a l).Perm (a :: l) := by
  intro l
  induction l with
  | nil => simp [insertLE]
  | cons b t ih =>
    unfold insertLE
    split
    · exact List.Perm.refl _
    · exact (List.Perm.cons b ih).trans (List.Perm.swap a b t)

theorem sortLE_perm {α : Type} (le : α → α → Bool) :
    ∀ l : List α, (sortLE le l).Perm l := by
  intro l
  induction l with
  | nil => exact List.Perm.refl _
  | cons a t ih =>
    exact (insertLE_perm le a (sortLE le t)).trans (List.Perm.cons a ih)

/-! ## Symmetric non-containment upgrade -/

theorem pairwise_not_superset_symm {sets : List (List JStr)}
    (hnd : ∀ s ∈ sets, s.Nodup)
    (hlen : sets.Pairwise (fun a b => a.length ≤ b.length))
    (hps : sets.Pairwise (fun a b => ¬ ∀ x ∈ a, x ∈ b)) :
    sets.Pairwise (fun a b => (¬ ∀ x ∈ a, x ∈ b) ∧ ¬ ∀ x ∈ b, x ∈ a) := by
  have hcomb := hlen.and hps
  refine hcomb.imp_of_mem ?_
  intro a b ha hb hab
  refine ⟨hab.2, ?_⟩
  intro hba
  exact hab.2 (subset_of_subset_of_length_le (hnd b hb) hba hab.1)

/-! ## Component equations of one fresh analysis pass -/

theorem ownerToFilesOf_eq (cfg : Config) (files : List JStr) :
    ownerToFilesOf cfg files = ownerMapPure cfg files := by
  unfold ownerToFilesOf
  rw [buildOwnerToFiles_eq]

theorem passTracking_eq (cfg : Config) (files : List JStr) :
    passTracking cfg files = trackingOf cfg files := by
  unfold passTracking analyzeOwnership
  rw [buildOwnerToFiles_eq]

theorem runAnalysis_fullCoverage (cfg : Config) (files : List JStr) :
    (runAnalysis cfg files).fullCoverageOwners =
      ((ownerMapPure cfg files).filter (fun e =>
        decide (e.2.length = (trackingOf cfg files).filesWithOwners.length))).map
        Prod.fst := by
  unfold runAnalysis analyzeOwnership
  rw [buildOwnerToFiles_eq]

theorem runAnalysis_combined (cfg : Config) (files : List JStr) :
    (runAnalysis cfg files).combinedSets =
      findCombinedOwnerSet cfg (trackingOf cfg files) (ownerMapPure cfg files) := by
  unfold runAnalysis analyzeOwnership
  rw [buildOwnerToFiles_eq]

theorem runAnalysis_statsWithOwners (cfg : Config) (files : List JStr) :
    (runAnalysis cfg files).statsWithOwners =
      (trackingOf cfg files).filesWithOwners.length := by
  unfold runAnalysis analyzeOwnership
  rw [buildOwnerToFiles_eq]

theorem runAnalysis_statsWithoutOwners (cfg : Config) (files : List JStr) :
    (runAnalysis cfg files).statsWithoutOwners =
      (trackingOf cfg files).filesWithoutOwners.length := by
  unfold runAnalysis analyzeOwnership
  rw [buildOwnerToFiles_eq]

/-! ## Coverage-union lemmas -/

theorem mem_union_foldl (g : JStr → List JStr) :
    ∀ (s acc : List JStr) (x : JStr),
      x ∈ s.foldl (fun a o => (g o).foldl jsAdd a) acc ↔
        x ∈ acc ∨ ∃ o ∈ s, x ∈ g o := by
  intro s
  induction s with
  | nil => intro acc x; simp
  | cons o rest ih =>
    intro acc x
    rw [List.foldl_cons, ih]
    rw [mem_foldl_jsAdd]
    constructor
    · rintro ((hx | hx) | ⟨o', ho', hx⟩)
      · exact .inl hx
      · exact .inr ⟨o, by simp, hx⟩
      · exact .inr ⟨o', by simp [ho'], hx⟩
    · rintro (hx | ⟨o', ho', hx⟩)
      · exact .inl (.inl hx)
      · rcases List.mem_cons.mp ho' with rfl | ho'
        · exact .inl (.inr hx)
        · exact .inr ⟨o', ho', hx⟩

theorem nodup_union_foldl (g : JStr → List JStr) :
    ∀ (s acc : List JStr), acc.Nodup →
      (s.foldl (fun a o => (g o).foldl jsAdd a) acc).Nodup := by
  intro s
  induction s with
  | nil => intro acc h; exact h
  | cons o rest ih =>
    intro acc h
    exact ih _ (foldl_jsAdd_nodup (g o) h)

theorem fold_union_congr (g₁ g₂ : JStr → List JStr) :
    ∀ (s : List JStr), (∀ o ∈ s, g₁ o = g₂ o) →
      ∀ (acc : List JStr),
        s.foldl (fun a o => (g₁ o).foldl jsAdd a) acc =
          s.foldl (fun a o => (g₂ o).foldl jsAdd a) acc := by
  intro s
  induction s with
  | nil => intro _ acc; rfl
  | cons o rest ih =>
    intro h acc
    rw [List.foldl_cons, List.foldl_cons, h o (by simp)]
    exact ih (fun o' ho' => h o' (List.mem_cons_of_mem _ ho')) _

theorem alookup_ownerCoverage (cfg : Config) (tr : Tracking)
    (m : List (JStr × List JStr)) (o : JStr) :
    alookup (ownerCoverageIn cfg tr m) o =
      if o ∈ remainingOwnersIn cfg tr m then some ((alookup m o).getD [])
      else none :=
  alookup_map_self (fun o => (alookup m o).getD []) (remainingOwnersIn cfg tr m) o

theorem getCoverage_eq_unionFilesOf {cfg : Config} {tr : Tracking}
    {m : List (JStr × List JStr)} {s : List JStr}
    (hs : ∀ o ∈ s, o ∈ remainingOwnersIn cfg tr m) :
    getCoverage (ownerCoverageIn cfg tr m) s = unionFilesOf m s := by
  unfold getCoverage unionFilesOf
  exact fold_union_congr (fun o => (alookup (ownerCoverageIn cfg tr m) o).getD [])
    (fun o => (alookup m o).getD []) s
    (fun o ho => by
      show (alookup (ownerCoverageIn cfg tr m) o).getD [] = (alookup m o).getD []
      rw [alookup_ownerCoverage, if_pos (hs o ho), Option.getD_some]) []

theorem mem_unionFilesOf {m : List (JStr × List JStr)} {s : List JStr} {x : JStr} :
    x ∈ unionFilesOf m s ↔ ∃ o ∈ s, x ∈ (alookup m o).getD [] := by
  unfold unionFilesOf
  rw [mem_union_foldl (fun o => (alookup m o).getD []) s [] x]
  simp

theorem unionFilesOf_nodup (m : List (JStr × List JStr)) (s : List JStr) :
    (unionFilesOf m s).Nodup :=
  nodup_union_foldl (fun o => (alookup m o).getD []) s [] List.nodup_nil

/-! ## Facts about the combination-search output -/

theorem remainingOwnersIn_nodup {cfg : Config} {tr : Tracking}
    {m : List (JStr × List JStr)} (h : (m.map Prod.fst).Nodup) :
    (remainingOwnersIn cfg tr m).Nodup :=
  h.filter _

theorem remaining_not_author {cfg : Config} {tr : Tracking}
    {m : List (JStr × List JStr)} {o : JStr}
    (ho : o ∈ remainingOwnersIn cfg tr m) : ¬ some o = cfg.prAuthor := by
  unfold remainingOwnersIn at ho
  have := (List.mem_filter.mp ho).2
  simp only [Bool.and_eq_true, decide_eq_true_eq] at this
  exact this.2

theorem mem_allCombos_elim {cfg : Config} {tr : Tracking}
    {m : List (JStr × List JStr)} {s : List JStr}
    (hs : s ∈ allCombosIn cfg tr m) :
    2 ≤ s.length ∧ s.length ≤ MAX_COMBINATION_SIZE ∧
      s.Sublist (remainingOwnersIn cfg tr m) := by
  unfold allCombosIn at hs
  obtain ⟨k, hk, hsk⟩ := List.mem_flatMap.mp hs
  have hb := mem_comboSizes hk
  have hlen := length_of_mem_combinations _ k s hsk
  exact ⟨hlen ▸ hb.1, hlen ▸ hb.2.1, sublist_of_mem_combinations _ k s hsk⟩

theorem mem_findCombined {cfg : Config} {tr : Tracking}
    {m : List (JStr × List JStr)} {s : List JStr}
    (hs : s ∈ findCombinedOwnerSet cfg tr m) : s ∈ acceptedIn cfg tr m := by
  unfold findCombinedOwnerSet at hs
  split at hs
  · simp at hs
  · exact (sortLE_perm (comboLE cfg.approvedReviewers) (acceptedIn cfg tr m)).mem_iff.mp hs

theorem findCombined_length_le (cfg : Config) (tr : Tracking)
    (m : List (JStr × List JStr)) :
    (findCombinedOwnerSet cfg tr m).length ≤ MAX_COMBINATIONS_TO_SHOW := by
  unfold findCombinedOwnerSet
  split
  · simp [MAX_COMBINATIONS_TO_SHOW]
  · rw [(sortLE_perm (comboLE cfg.approvedReviewers) (acceptedIn cfg tr m)).length_eq]
    exact (acceptedIn_inv cfg tr m).2.1

theorem allCombosIn_pairwise_length (cfg : Config) (tr : Tracking)
    (m : List (JStr × List JStr)) :
    (allCombosIn cfg tr m).Pairwise (fun a b => a.length ≤ b.length) :=
  pairwise_length_flatMap (remainingOwnersIn cfg tr m) _
    (pairwise_le_comboSizes (remainingOwnersIn cfg tr m).length)

theorem findCombined_pairwise {cfg : Config} {tr : Tracking}
    {m : List (JStr × List JStr)} (hkeys : (m.map Prod.fst).Nodup) :
    (findCombinedOwnerSet cfg tr m).Pairwise
      (fun a b => (¬ ∀ x ∈ a, x ∈ b) ∧ ¬ ∀ x ∈ b, x ∈ a) := by
  unfold findCombinedOwnerSet
  split
  · exact List.Pairwise.nil
  · have hinv := acceptedIn_inv cfg tr m
    have hnd : ∀ s ∈ acceptedIn cfg tr m, s.Nodup := by
      intro s hs
      have := (mem_allCombos_elim (hinv.1.subset hs)).2.2
      exact this.nodup (remainingOwnersIn_nodup hkeys)
    have hlen : (acceptedIn cfg tr m).Pairwise (fun a b => a.length ≤ b.length) :=
      (allCombosIn_pairwise_length cfg tr m).sublist hinv.1
    have hsym := pairwise_not_superset_symm hnd hlen hinv.2.2.2
    have hsymR : ∀ {x y : List JStr},
        ((¬ ∀ a ∈ x, a ∈ y) ∧ ¬ ∀ a ∈ y, a ∈ x) →
        ((¬ ∀ a ∈ y, a ∈ x) ∧ ¬ ∀ a ∈ x, a ∈ y) := fun h => ⟨h.2, h.1⟩
    exact ((sortLE_perm (comboLE cfg.approvedReviewers)
      (acceptedIn cfg tr m)).pairwise_iff hsymR).mpr hsym

/-! ## Instantiated map invariant and value bounds -/

theorem ownerMap_inv_W (cfg : Config) (files : List JStr) :
    MapInv cfg (fun x => x ∈ (trackingOf cfg files).filesWithOwners)
      (ownerMapPure cfg files) := by
  apply ownerMapPure_inv
  intro f hf hne
  show f ∈ (jsSetOf files).filter (hasOwners cfg)
  exact List.mem_filter.mpr ⟨(mem_jsSetOf files f).mpr hf, by simp [hasOwners, hne]⟩

theorem unionFilesOf_sub_W (cfg : Config) (files : List JStr) {s : List JStr}
    {x : JStr} (hx : x ∈ unionFilesOf (ownerMapPure cfg files) s) :
    x ∈ (trackingOf cfg files).filesWithOwners := by
  obtain ⟨o, _, hxo⟩ := mem_unionFilesOf.mp hx
  cases hl : alookup (ownerMapPure cfg files) o with
  | none => rw [hl] at hxo; simp at hxo
  | some fs =>
    rw [hl] at hxo
    simp only [Option.getD_some] at hxo
    exact ((ownerMap_inv_W cfg files).2.2 (o, fs) (alookup_mem hl)).2 x hxo

theorem trackingOf_filesWithOwners_nodup (cfg : Config) (files : List JStr) :
    (trackingOf cfg files).filesWithOwners.Nodup :=
  (jsSetOf_nodup files).filter _

/-! ## Claim theorems: coverage analysis and combination search -/

/-- C3.  An owner is classified full-coverage by `analyzeOwnership` iff
its `ownerToFiles` file count equals `filesWithOwners.size`; and that
denominator counts exactly the changed files whose computed owner set is
non-empty — files without owners are excluded from it. -/
theorem fullCoverage_iff_card_eq (cfg : Config) (files : List JStr) (o : JStr) :
    (o ∈ (runAnalysis cfg files).fullCoverageOwners ↔
      ∃ fs, alookup (ownerToFilesOf cfg files) o = some fs ∧
        fs.length = (runAnalysis cfg files).statsWithOwners) ∧
    (runAnalysis cfg files).statsWithOwners =
      ((jsSetOf files).filter (fun f => decide (computeOwners cfg f ≠ []))).length := by
  constructor
  · rw [runAnalysis_fullCoverage, runAnalysis_statsWithOwners, ownerToFilesOf_eq]
    rw [mem_map_fst_filter (ownerMap_inv_W cfg files).1]
    simp only [decide_eq_true_eq]
  · rw [runAnalysis_statsWithOwners]
    rfl

/-- C4.  Every combined set in the output of one analysis pass covers the
files-with-owners set exactly: the union of its members' `ownerToFiles`
file sets has the same elements as `filesWithOwners`. -/
theorem combined_union_eq_filesWithOwners (cfg : Config) (files : List JStr)
    (s : List JStr) (hs : s ∈ (runAnalysis cfg files).combinedSets) (x : JStr) :
    x ∈ unionFilesOf (ownerToFilesOf cfg files) s ↔
      x ∈ (passTracking cfg files).filesWithOwners := by
  rw [runAnalysis_combined] at hs
  rw [ownerToFilesOf_eq, passTracking_eq]
  have h1 := mem_findCombined hs
  have hinv := acceptedIn_inv cfg (trackingOf cfg files) (ownerMapPure cfg files)
  have hcov := hinv.2.2.1 s h1
  have hall := mem_allCombos_elim (hinv.1.subset h1)
  have heq : getCoverage (ownerCoverageIn cfg (trackingOf cfg files) (ownerMapPure cfg files)) s =
      unionFilesOf (ownerMapPure cfg files) s :=
    getCoverage_eq_unionFilesOf (fun o ho => hall.2.2.subset ho)
  have hlenU : (unionFilesOf (ownerMapPure cfg files) s).length =
      (trackingOf cfg files).filesWithOwners.length := by
    rw [← heq]; exact hcov
  have hsubU : ∀ y ∈ unionFilesOf (ownerMapPure cfg files) s,
      y ∈ (trackingOf cfg files).filesWithOwners :=
    fun y hy => unionFilesOf_sub_W cfg files hy
  constructor
  · exact fun h => hsubU x h
  · intro hxW
    exact subset_of_subset_of_length_le (unionFilesOf_nodup _ s) hsubU
      (le_of_eq hlenU.symm) x hxW

/-- Witness for C4 at a concrete pass: the set `{@a, @b}` is a combined
set for rules `f1 @a` / `f2 @b @c` over changed files `f1, f2`, and `f1`
lies in its union iff it lies in the files-with-owners set. -/
theorem combined_union_eq_filesWithOwners_witness :
    (["@a".data, "@b".data] ∈
      (runAnalysis ⟨some "f1 @a\nf2 @b @c".data, none, [], []⟩
        ["f1".data, "f2".data]).combinedSets) ∧
    ("f1".data ∈ unionFilesOf
        (ownerToFilesOf ⟨some "f1 @a\nf2 @b @c".data, none, [], []⟩
          ["f1".data, "f2".data]) ["@a".data, "@b".data] ↔
      "f1".data ∈ (passTracking ⟨some "f1 @a\nf2 @b @c".data, none, [], []⟩
        ["f1".data, "f2".data]).filesWithOwners) :=
  ⟨by decide,
   combined_union_eq_filesWithOwners _ ["f1".data, "f2".data]
     ["@a".data, "@b".data] (by decide) "f1".data⟩

/-- C5.  The request author never appears in the full-coverage owners nor
in any member list of any combined set of an analysis pass. -/
theorem author_never_in_results (raw : Option JStr)
    (cmap : List (JStr × List PatternObj)) (apr : List JStr) (a : JStr)
    (files : List JStr) :
    a ∉ (runAnalysis ⟨raw, some a, cmap, apr⟩ files).fullCoverageOwners ∧
    ∀ s ∈ (runAnalysis ⟨raw, some a, cmap, apr⟩ files).combinedSets, a ∉ s := by
  constructor
  · rw [runAnalysis_fullCoverage]
    intro hmem
    obtain ⟨e, he, heq⟩ := List.mem_map.mp hmem
    have hem : e ∈ ownerMapPure ⟨raw, some a, cmap, apr⟩ files :=
      (List.mem_filter.mp he).1
    have hna := (ownerMap_inv_W ⟨raw, some a, cmap, apr⟩ files).2.1 e hem
    apply hna
    rw [heq]
  · intro s hs ha
    rw [runAnalysis_combined] at hs
    have h1 := mem_findCombined hs
    have h2 := (mem_allCombos_elim ((acceptedIn_inv _ _ _).1.subset h1)).2.2
    have h3 := remaining_not_author (h2.subset ha)
    exact h3 rfl

/-- Witness for C5 at a concrete pass with author `@d`: `{@a, @b}` is a
combined set and `@d` is not one of its members. -/
theorem author_never_in_results_witness :
    (["@a".data, "@b".data] ∈
      (runAnalysis ⟨some "f1 @a @d\nf2 @b".data, some "@d".data, [], []⟩
        ["f1".data, "f2".data]).combinedSets) ∧
    "@d".data ∉ (["@a".data, "@b".data] : List JStr) :=
  ⟨by decide,
   (author_never_in_results (some "f1 @a @d\nf2 @b".data) [] [] "@d".data
     ["f1".data, "f2".data]).2 ["@a".data, "@b".data] (by decide)⟩

/-- C6.  In the final combined-sets output, no set is a superset
(including equality) of a set that appears earlier: the pruning discards
supersets of accepted sets, and the size-ascending final order cannot
create such a pair. -/
theorem combined_no_earlier_superset (cfg : Config) (files : List JStr) :
    (runAnalysis cfg files).combinedSets.Pairwise
      (fun a b => ¬ ∀ x ∈ a, x ∈ b) := by
  rw [runAnalysis_combined]
  exact (findCombined_pairwise (ownerMap_inv_W cfg files).1).imp (fun h => h.1)

/-- C7.  The combined-sets output of an analysis pass contains at most
`MAX_COMBINATIONS_TO_SHOW` sets, each of size between 2 and
`MAX_COMBINATION_SIZE`. -/
theorem combined_caps (cfg : Config) (files : List JStr) :
    (runAnalysis cfg files).combinedSets.length ≤ MAX_COMBINATIONS_TO_SHOW ∧
    ∀ s ∈ (runAnalysis cfg files).combinedSets,
      2 ≤ s.length ∧ s.length ≤ MAX_COMBINATION_SIZE := by
  rw [runAnalysis_combined]
  refine ⟨findCombined_length_le _ _ _, ?_⟩
  intro s hs
  have h1 := mem_findCombined hs
  have h2 := mem_allCombos_elim ((acceptedIn_inv _ _ _).1.subset h1)
  exact ⟨h2.1, h2.2.1⟩

/-- Witness for C7 at a concrete pass: the combined set `{@a, @b}` exists
and its size lies within the bounds. -/
theorem combined_caps_witness :
    (["@a".data, "@b".data] ∈
      (runAnalysis ⟨some "f1 @a\nf2 @b".data, none, [], []⟩
        ["f1".data, "f2".data]).combinedSets) ∧
    (2 ≤ (["@a".data, "@b".data] : List JStr).length ∧
      (["@a".data, "@b".data] : List JStr).length ≤ MAX_COMBINATION_SIZE) :=
  ⟨by decide,
   (combined_caps ⟨some "f1 @a\nf2 @b".data, none, [], []⟩
     ["f1".data, "f2".data]).2 ["@a".data, "@b".data] (by decide)⟩

/-- C9 (counterexample).  A call answered from the per-file owner cache
performs no classification: after one fresh resolution of `a.txt` (rules
`a.txt @bob`), resetting the tracking sets as `updateChangedFiles` does
(without clearing the cache) and querying the same file again returns the
non-empty cached owner set while leaving `filesWithOwners` empty — the
claim would require `a.txt` to be re-added. -/
theorem cached_call_skips_classification :
    ((getFileOwners ⟨some "a.txt @bob".data, none, [], []⟩
        (resetTrackingSets ((getFileOwners ⟨some "a.txt @bob".data, none, [], []⟩
          Tracking.fresh "a.txt".data).2)) "a.txt".data).1 ≠ []) ∧
    (getFileOwners ⟨some "a.txt @bob".data, none, [], []⟩
        (resetTrackingSets ((getFileOwners ⟨some "a.txt @bob".data, none, [], []⟩
          Tracking.fresh "a.txt".data).2)) "a.txt".data).2.filesWithOwners = [] := by
  decide

/-- C9 (amended).  Starting from the constructor state (cache and
tracking sets simultaneously empty), any sequence of `getFileOwners`
calls — repetitions included — leaves the tracking sets exactly
partitioning the distinct queried files by owner-set emptiness; only
cache-miss calls classify, which suffices because cache and tracking sets
started empty together. -/
theorem tracking_reflects_fresh_queries (cfg : Config) (files : List JStr) :
    (files.foldl (fun tr f => (getFileOwners cfg tr f).2) Tracking.fresh).filesWithOwners =
      (jsSetOf files).filter (fun f => decide (computeOwners cfg f ≠ [])) ∧
    (files.foldl (fun tr f => (getFileOwners cfg tr f).2) Tracking.fresh).filesWithoutOwners =
      (jsSetOf files).filter (fun f => decide (computeOwners cfg f = [])) := by
  have h : files.foldl (fun tr f => (getFileOwners cfg tr f).2) Tracking.fresh =
      trackingOf cfg files := by
    rw [← trackingOf_nil cfg, foldl_getFileOwners_trackingOf]
    simp
  rw [h]
  refine ⟨rfl, ?_⟩
  show (jsSetOf files).filter (fun f => !hasOwners cfg f) = _
  apply List.filter_congr
  intro f _
  simp [hasOwners]

/-- C10.  With no rule source (no raw text, empty compiled map) the pass
degrades without failing: every file resolves to the empty owner set and
lands in `filesWithoutOwners`, `filesWithOwners` is empty, and both
result lists are empty.  (Totality of the embedding models the absence of
exceptions.) -/
theorem no_rule_source_degrades (author : Option JStr) (apr : List JStr)
    (files : List JStr) :
    (∀ f, (getFileOwners ⟨none, author, [], apr⟩ Tracking.fresh f).1 = []) ∧
    (runAnalysis ⟨none, author, [], apr⟩ files).statsWithOwners = 0 ∧
    (runAnalysis ⟨none, author, [], apr⟩ files).statsWithoutOwners =
      (jsSetOf files).length ∧
    (passTracking ⟨none, author, [], apr⟩ files).filesWithoutOwners =
      jsSetOf files ∧
    (runAnalysis ⟨none, author, [], apr⟩ files).fullCoverageOwners = [] ∧
    (runAnalysis ⟨none, author, [], apr⟩ files).combinedSets = [] := by
  have hempty : ∀ f, computeOwners ⟨none, author, [], apr⟩ f = [] := fun f => rfl
  have hW : (trackingOf ⟨none, author, [], apr⟩ files).filesWithOwners = [] := by
    show (jsSetOf files).filter (hasOwners ⟨none, author, [], apr⟩) = []
    rw [List.filter_eq_nil_iff]
    intro a _
    simp [hasOwners, hempty a]
  have hWo : (trackingOf ⟨none, author, [], apr⟩ files).filesWithoutOwners =
      jsSetOf files := by
    show (jsSetOf files).filter (fun f => !hasOwners ⟨none, author, [], apr⟩ f) =
      jsSetOf files
    rw [List.filter_eq_self]
    intro a _
    simp [hasOwners, hempty a]
  have hm : ownerMapPure ⟨none, author, [], apr⟩ files = [] :=
    ownerMapPure_of_all_empty _ hempty files
  refine ⟨?_, ?_, ?_, ?_, ?_, ?_⟩
  · intro f
    rw [← trackingOf_nil ⟨none, author, [], apr⟩, getFileOwners_trackingOf]
    exact hempty f
  · rw [runAnalysis_statsWithOwners, hW]
    rfl
  · rw [runAnalysis_statsWithoutOwners, hWo]
  · rw [passTracking_eq]
    exact hWo
  · rw [runAnalysis_fullCoverage, hm]
    rfl
  · rw [runAnalysis_combined, hm]
    rfl

/-! ## Claim theorems: owner resolution -/

theorem ownersFromRaw_go (author : Option JStr) (f : JStr) :
    ∀ (lines : List JStr) (acc : List JStr),
      lines.foldl
        (fun acc line =>
          match parseRuleLine line with
          | none => acc
          | some (pattern, owners) =>
            if doesPatternMatch (stripLeadingSlash pattern) f = true then
              authorFilter author owners
            else acc)
        acc =
      (match ((lines.filterMap parseRuleLine).filter
          (fun r => doesPatternMatch (stripLeadingSlash r.1) f)).getLast? with
        | some r => authorFilter author r.2
        | none => acc) := by
  intro lines
  induction lines with
  | nil => intro acc; rfl
  | cons line t ih =>
    intro acc
    rw [List.foldl_cons, List.filterMap_cons]
    cases hp : parseRuleLine line with
    | none =>
      simp only [hp]
      exact ih acc
    | some r =>
      obtain ⟨p, os⟩ := r
      simp only [hp]
      by_cases hmatch : doesPatternMatch (stripLeadingSlash p) f = true
      · rw [if_pos hmatch, ih (authorFilter author os)]
        have hfc : ((p, os) :: t.filterMap parseRuleLine).filter
            (fun r => doesPatternMatch (stripLeadingSlash r.1) f) =
            (p, os) :: (t.filterMap parseRuleLine).filter
              (fun r => doesPatternMatch (stripLeadingSlash r.1) f) := by
          rw [List.filter_cons, if_pos hmatch]
        rw [hfc]
        cases hL : (t.filterMap parseRuleLine).filter
            (fun r => doesPatternMatch (stripLeadingSlash r.1) f) with
        | nil => rfl
        | cons x xs =>
          rw [List.getLast?_cons_cons]
          cases hxl : (x :: xs).getLast? with
          | none => simp at hxl
          | some y => rfl
      · rw [if_neg hmatch, ih acc]
        have hfc : ((p, os) :: t.filterMap parseRuleLine).filter
            (fun r => doesPatternMatch (stripLeadingSlash r.1) f) =
            (t.filterMap parseRuleLine).filter
              (fun r => doesPatternMatch (stripLeadingSlash r.1) f) := by
          rw [List.filter_cons]
          simp only [hmatch]
          rfl
        rw [hfc]

/-- C1.  On a fresh state with a non-empty raw CODEOWNERS text,
`getFileOwners` returns exactly the author-filtered owner set of the last
parsed rule (owner-bearing, non-comment, non-blank line) whose pattern
matches the file, and the empty set when no rule matches; earlier
matching rules and owner-less lines contribute nothing. -/
theorem getFileOwners_last_match_wins (c : Char) (rest : JStr)
    (author : Option JStr) (cmap : List (JStr × List PatternObj))
    (apr : List JStr) (f : JStr) :
    (getFileOwners ⟨some (c :: rest), author, cmap, apr⟩ Tracking.fresh f).1 =
      match ((parsedRules (c :: rest)).filter
          (fun r => doesPatternMatch (stripLeadingSlash r.1) f)).getLast? with
      | some r => authorFilter author r.2
      | none => [] := by
  rw [← trackingOf_nil ⟨some (c :: rest), author, cmap, apr⟩,
    getFileOwners_trackingOf]
  show computeOwners ⟨some (c :: rest), author, cmap, apr⟩ f = _
  have hco : computeOwners ⟨some (c :: rest), author, cmap, apr⟩ f =
      ownersFromRaw (c :: rest) author f := rfl
  rw [hco]
  unfold ownersFromRaw parsedRules
  exact ownersFromRaw_go author f (chSplitOn ['\n'] (c :: rest)) []

/-- C8 (evaluation at the failing input).  With rules `f1 @a` /
`f2 @b @c`, changed files `f1, f2`, no author, and the
`approvedReviewers` instance field as the constructor leaves it (empty —
`updateUI` keeps the fetched approvals in a local and never assigns the
field), the pass returns the equal-size sets in enumeration order
`[{@a,@b}, {@a,@c}]`; against provider-supplied approvals `{@c}` the
first listed set has strictly fewer approved members than the second,
contradicting the claimed descending approved-count tie-break. -/
theorem approval_tiebreak_ignored_eval :
    (runAnalysis ⟨some "f1 @a\nf2 @b @c".data, none, [], []⟩
        ["f1".data, "f2".data]).combinedSets =
      [["@a".data, "@b".data], ["@a".data, "@c".data]] ∧
    approvedCount ["@c".data] ["@a".data, "@b".data] <
      approvedCount ["@c".data] ["@a".data, "@c".data] := by
  decide

/-! ## Claim theorems: the pattern matcher against its specification -/

theorem chContains_tail_false {c : Char} {rest sub : JStr}
    (h : chContains (c :: rest) sub = false) : chContains rest sub = false := by
  simp only [chContains, Bool.or_eq_false_iff] at h
  exact h.2

theorem regexSafe_tail {c : Char} {rest : JStr}
    (h : regexSafe (c :: rest) = true) : regexSafe rest = true := by
  simp only [regexSafe, List.all_cons, Bool.and_eq_true] at h
  exact h.2

theorem regexSafe_head {c : Char} {rest : JStr}
    (h : regexSafe (c :: rest) = true) : c ∉ jsRegexSpecials := by
  simp only [regexSafe, List.all_cons, Bool.and_eq_true, decide_eq_true_eq] at h
  exact h.1

theorem regexSafe_strip {p : JStr} (h : regexSafe p = true) :
    regexSafe (stripLeadingSlash p) = true := by
  by_cases hc : ∃ rest, p = '/' :: rest
  · obtain ⟨rest, rfl⟩ := hc
    exact regexSafe_tail h
  · have hid : stripLeadingSlash p = p :=
      stripLeadingSlash.eq_2 p (fun rest hr => hc ⟨rest, hr⟩)
    rw [hid]
    exact h

theorem buildRegexAux_safe :
    ∀ p : JStr, chContains p ['*', '*'] = false → regexSafe p = true →
      ∀ (st : RState) (acc : List RPiece),
        buildRegexAux st acc p = some (acc.reverse ++ specPieces p) := by
  intro p
  induction p using specPieces.induct with
  | case1 =>
    intro _ _ st acc
    simp [buildRegexAux, specPieces]
  | case2 rest ih =>
    intro hcc _ _ _
    exfalso
    simp [chContains, chStartsWith] at hcc
  | case3 rest hnot ih =>
    intro hcc hsafe st acc
    rw [buildRegexAux.eq_4 st acc rest hnot,
      ih (chContains_tail_false hcc) (regexSafe_tail hsafe) .afterQuant _,
      specPieces.eq_3 rest hnot]
    simp [List.reverse_cons, List.append_assoc]
  | case4 c rest hnot1 hnot2 ih =>
    intro hcc hsafe st acc
    have hsp := regexSafe_head hsafe
    have hihs := ih (chContains_tail_false hcc) (regexSafe_tail hsafe)
    rw [specPieces.eq_4 c rest hnot1 hnot2]
    by_cases hdot : c = '.'
    · subst hdot
      rw [buildRegexAux.eq_2 st acc rest, hihs .afterAtom _]
      simp [List.reverse_cons, List.append_assoc]
    · have hplus : c ≠ '+' := by
        intro hq
        exact hsp (by rw [hq]; simp [jsRegexSpecials])
      have hopt : c ≠ '?' := by
        intro hq
        exact hsp (by rw [hq]; simp [jsRegexSpecials])
      have hbr : ¬ c ∈ ['(', ')', '[', ']', '{', '}', '|', '^', '$', '\\'] := by
        intro hm
        exact hsp ((by decide :
          ∀ x ∈ ['(', ')', '[', ']', '{', '}', '|', '^', '$', '\\'],
            x ∈ jsRegexSpecials) c hm)
      rw [buildRegexAux.eq_10 st acc c rest hdot hnot1 hnot2 hplus hopt]
      rw [if_neg hbr]
      rw [hihs RState.afterAtom _]
      simp [List.reverse_cons, List.append_assoc]

/-- C2 (counterexample).  At pattern `c++/*` and path `c++/foo.h` the
code and the specification's six-rule description disagree: the
constructed expression `^c++/[^/]*$` is an ECMAScript `SyntaxError` (a
quantifier may not follow a quantifier), so the catch degrades to the
literal prefix/equality check and `doesPatternMatch` returns `false`,
while rule (6) as stated — every character beyond `*` and `.` literal —
matches and returns `true`. -/
theorem metachar_fallback_counterexample :
    doesPatternMatch "c++/*".data "c++/foo.h".data = false ∧
    patternMatchSpec "c++/*".data "c++/foo.h".data = true := by
  decide

/-- C2 (amended).  For every pattern containing no regular-expression
metacharacter beyond `*` and `.` (no `+ ? ( ) [ ] \x7b \x7d | ^ $` or
backslash), the matcher decides the match exactly as the specification's
six-rule precedence list states it; patterns with such metacharacters
fall outside the clean rule-(6) translation, because the code escapes
only dots before handing the pattern to the regular-expression engine and
degrades to a literal prefix/equality check when construction throws. -/
theorem doesPatternMatch_eq_spec_safe (p f : JStr) (h : regexSafe p = true) :
    doesPatternMatch p f = patternMatchSpec p f := by
  simp only [doesPatternMatch, patternMatchSpec]
  split_ifs with h1 h2 h3 h4 h4a h4b h5
  all_goals try rfl
  · refine (decide_eq_false ?_).symm
    rintro ⟨he | ht, _⟩
    · exact h4a.1 he
    · rw [h4a.2] at ht
      cases ht
  · refine (decide_eq_false ?_).symm
    rintro ⟨_, he | ht⟩
    · exact h4b.1 he
    · rw [h4b.2] at ht
      cases ht
  · refine (decide_eq_true ?_).symm
    constructor
    · by_cases he : (chSplitOn ['*', '*'] (stripLeadingSlash p)).headD [] = []
      · exact .inl he
      · rcases Bool.eq_false_or_eq_true
          (chStartsWith (stripLeadingSlash f)
            ((chSplitOn ['*', '*'] (stripLeadingSlash p)).headD [])) with hb | hb
        · exact .inr hb
        · exact absurd ⟨he, hb⟩ h4a
    · by_cases he : ((chSplitOn ['*', '*'] (stripLeadingSlash p)).drop 1).headD [] = []
      · exact .inl he
      · rcases Bool.eq_false_or_eq_true
          (chEndsWith (stripLeadingSlash f)
            (((chSplitOn ['*', '*'] (stripLeadingSlash p)).drop 1).headD [])) with hb | hb
        · exact .inr hb
        · exact absurd ⟨he, hb⟩ h4b
  · simp only [buildRegexAux_safe (stripLeadingSlash p)
      (Bool.eq_false_iff.mpr h4) (regexSafe_strip h) .start [],
      List.reverse_nil, List.nil_append]

/-- Witness for the amended C2 at a concrete input that exercises the
regular-expression fallback: pattern `a*b` is metacharacter-free and both
sides match path `axxb`. -/
theorem doesPatternMatch_eq_spec_safe_witness :
    regexSafe "a*b".data = true ∧
    doesPatternMatch "a*b".data "axxb".data =
      patternMatchSpec "a*b".data "axxb".data :=
  ⟨by decide, doesPatternMatch_eq_spec_safe "a*b".data "axxb".data (by decide)⟩

end CodeOwnersAnalyzer
